import Mathlib

/-!
# Verification of the planning-app repository against its specification

Shallow embedding of the repository's code in Lean 4, together with
theorems settling the specification claims.

Part I embeds the utility functions that exist verbatim in the sources
(`safeFilename`, `calculateSMA`, `abToBase64` / `base64ToBytes`).
Part II models the procedural song-generator pipeline described by the
specification; that subsystem's code is not present under `src/`, so each
of its definitions is modelled from the spec (see the doc comments).

JavaScript numbers are embedded as `Rat` (exact arithmetic), JS strings
as `String` / `List Char`, byte buffers as `List Nat` with every element
`< 256`, and `null`/`undefined` arguments as `Option`.
-/

namespace Planning

/-! ## Part I.1: `safeFilename` (src/unnamed/part_001, lines 150-154)

```js
function safeFilename(name) {
  return (name || "file")
    .replace(/[^a-zA-Z0-9._-]/g, "_")
    .slice(0, 80);
}
```
-/

/-- The character class `[a-zA-Z0-9._-]` of the sanitizing regex. -/
def safeFilenameAllowed (c : Char) : Bool :=
  ('a' ≤ c && c ≤ 'z') || ('A' ≤ c && c ≤ 'Z') || ('0' ≤ c && c ≤ '9')
    || c == '.' || c == '_' || c == '-'

/-- JavaScript `name || dflt`: `null`/`undefined` (here `none`) and the
empty string are falsy, anything else is returned unchanged. -/
def jsStringOrElse (name : Option String) (dflt : String) : String :=
  match name with
  | none => dflt
  | some s => if s = "" then dflt else s

/-- `safeFilename` from src/unnamed/part_001: default the falsy input to
`"file"`, replace every character outside `[a-zA-Z0-9._-]` by `_`, then
`slice(0, 80)`.  After the replacement every character is ASCII, so the
JS code-unit slice agrees with the character-level `take`. -/
def safeFilename (name : Option String) : String :=
  String.mk ((((jsStringOrElse name "file").data.map
    (fun c => if safeFilenameAllowed c then c else '_')).take 80))

/-! ## Part I.2: `calculateSMA` (src/unnamed/part_002, lines 7-14)

```js
function calculateSMA(data, period) {
  const smaData = [];
  for (let i = period - 1; i < data.length; i++) {
    const sum = data.slice(i - period + 1, i + 1).reduce((acc, val) => acc + val.close, 0);
    smaData.push({ time: data[i].time, value: sum / period });
  }
  return smaData;
}
```
-/

/-- One candlestick datum as produced by `getChartData` in
src/src/api.js: `{time, open, high, low, close}`.  `calculateSMA` reads
only `time` and `close`; the other price fields are carried for
fidelity (`open` is a Lean keyword, hence `openP`). -/
structure Candle where
  time : Int
  openP : Rat
  high : Rat
  low : Rat
  close : Rat
deriving Repr, DecidableEq

instance : Inhabited Candle := ⟨⟨0, 0, 0, 0, 0⟩⟩

/-- JavaScript indexing `data[i]` (used by `calculateSMA` only at
indices that are in range). -/
def candleAt (data : List Candle) (i : Nat) : Candle :=
  (data.get? i).getD default

/-- One output point `{time, value}` of `calculateSMA`. -/
structure SMAPoint where
  time : Int
  value : Rat
deriving Repr, DecidableEq

/-- `calculateSMA` from src/unnamed/part_002: for each `i` from
`period - 1` to `data.length - 1`, push the mean of the `close` fields
of `data.slice(i - period + 1, i + 1)` together with `data[i].time`.
`slice(a, b)` is embedded as `(drop a).take (b - a)`; the loop index
range is `List.range' (period - 1) (data.length - (period - 1))`. -/
def calculateSMA (data : List Candle) (period : Nat) : List SMAPoint :=
  (List.range' (period - 1) (data.length - (period - 1))).map (fun i =>
    { time := (candleAt data i).time
      value := (((data.drop (i + 1 - period)).take ((i + 1) - (i + 1 - period))).foldl
          (fun acc val => acc + val.close) 0) / (period : Rat) })

/-! ## Part I.3: `abToBase64` / `base64ToBytes` (src/worker.js, lines 54-69)

```js
function abToBase64(ab) {
  let binary = "";
  const bytes = new Uint8Array(ab);
  const chunk = 0x8000;
  for (let i = 0; i < bytes.length; i += chunk) {
    binary += String.fromCharCode(...bytes.subarray(i, i + chunk));
  }
  return btoa(binary);
}

function base64ToBytes(b64) {
  const bin = atob(b64);
  const out = new Uint8Array(bin.length);
  for (let i = 0; i < bin.length; i++) out[i] = bin.charCodeAt(i);
  return out;
}
```

The chunked loop in `abToBase64` concatenates
`String.fromCharCode(bytes[i])` over all bytes in order, so the binary
string passed to `btoa` is exactly the byte list read as Latin-1 code
units.  `btoa`/`atob` are the platform's standard base64 encoder and
decoder (RFC 4648 with `=` padding); byte buffers and code-unit strings
are both embedded as `List Nat`. -/

/-- The base64 alphabet as character codes: `A-Z`, `a-z`, `0-9`, `+`, `/`. -/
def base64Alphabet : List Nat :=
  ((List.range 26).map (· + 65)) ++ ((List.range 26).map (· + 97))
    ++ ((List.range 10).map (· + 48)) ++ [43, 47]

/-- Character code of the base64 digit for a sextet `s < 64`. -/
def sextetChar (s : Nat) : Nat :=
  (base64Alphabet.get? s).getD 65

/-- Sextet value of a base64 digit character code (used by `atob`). -/
def sextetOf (c : Nat) : Nat :=
  base64Alphabet.indexOf c

/-- `btoa`: standard base64 over the code units of the binary string,
three input bytes per four output digits, `=`-padded (code 61). -/
def btoa : List Nat → List Nat
  | [] => []
  | [b0] => [sextetChar (b0 / 4), sextetChar (b0 % 4 * 16), 61, 61]
  | [b0, b1] => [sextetChar (b0 / 4), sextetChar (b0 % 4 * 16 + b1 / 16),
      sextetChar (b1 % 16 * 4), 61]
  | b0 :: b1 :: b2 :: rest =>
      sextetChar (b0 / 4) :: sextetChar (b0 % 4 * 16 + b1 / 16) ::
      sextetChar (b1 % 16 * 4 + b2 / 64) :: sextetChar (b2 % 64) :: btoa rest

/-- `atob`: decode four base64 digits to three bytes, honouring `=`
padding (code 61).  Inputs whose length is not a multiple of four make
the platform `atob` throw; the embedding returns `[]` there (never
reached on `btoa` output). -/
def atob : List Nat → List Nat
  | c0 :: c1 :: c2 :: c3 :: rest =>
      if c2 = 61 then
        [sextetOf c0 * 4 + sextetOf c1 / 16]
      else if c3 = 61 then
        [sextetOf c0 * 4 + sextetOf c1 / 16,
         sextetOf c1 % 16 * 16 + sextetOf c2 / 4]
      else
        (sextetOf c0 * 4 + sextetOf c1 / 16) ::
        (sextetOf c1 % 16 * 16 + sextetOf c2 / 4) ::
        (sextetOf c2 % 4 * 64 + sextetOf c3) :: atob rest
  | _ => []

/-- `abToBase64` from src/worker.js: the chunked
`String.fromCharCode` concatenation is the identity on the byte list,
followed by `btoa`. -/
def abToBase64 (ab : List Nat) : List Nat :=
  btoa ab

/-- `base64ToBytes` from src/worker.js: `atob`, then read each code
unit back as a byte. -/
def base64ToBytes (b64 : List Nat) : List Nat :=
  atob b64

/-! ## Part II: the procedural song generator

The specification (§1-§4, §8) describes a song-generation pipeline whose
code is not present under `src/`; every definition below is therefore
modelled from the spec, faithful to its words, with the
implementation-chosen details (distribution thresholds, gap sizes)
fixed once and deterministically. -/

/-- Modelled from the spec (§4.2): the seed is an unsigned 32-bit
integer; a zero seed is coerced to 1 to avoid the degenerate all-zero
stream. -/
def rngSeedInit (seed : Nat) : Nat :=
  if seed % 4294967296 = 0 then 1 else seed % 4294967296

/-- Modelled from the spec (§4.2): the internal state is a single
32-bit unsigned integer updated by a fixed xorshift-style recurrence
(xorshift32: shifts 13, 17, 5). -/
def rngStep (s : Nat) : Nat :=
  let s1 := (s ^^^ (s <<< 13)) % 4294967296
  let s2 := s1 ^^^ (s1 >>> 17)
  (s2 ^^^ (s2 <<< 5)) % 4294967296

/-- Modelled from the spec (§4.2): `next()` advances the state and
yields a number in `[0,1)` (the new state divided by `2^32`). -/
def rngNext (s : Nat) : Nat × Rat :=
  let s' := rngStep s
  (s', (s' : Rat) / 4294967296)

/-- The first `n` outputs of `next()` starting from state `s`. -/
def rngStreamAux (s : Nat) : Nat → List Rat
  | 0 => []
  | n + 1 =>
      let (s', r) := rngNext s
      r :: rngStreamAux s' n

/-- Modelled from the spec (§4.2): the sequence of `next()` outputs of
a generator initialized from `seed`. -/
def rngStream (seed : Nat) (n : Nat) : List Rat :=
  rngStreamAux (rngSeedInit seed) n

/-- Modelled from the spec (§3): a Token is `{ text: string }`. -/
structure Token where
  text : String
deriving Repr, DecidableEq

/-- Punctuation stripped from word-delimited tokens (§4.1). -/
def isPunctuation (c : Char) : Bool :=
  c == ',' || c == '.' || c == '!' || c == '?' || c == ';' || c == ':'
    || c == '"' || c == '(' || c == ')'

/-- Split a character list at every occurrence of a separator
character (the splitting primitive of the tokenizer, §4.1). -/
def splitOnChar (sep : Char) : List Char → List (List Char)
  | [] => [[]]
  | c :: rest =>
      let r := splitOnChar sep rest
      if c = sep then [] :: r
      else
        match r with
        | [] => [[c]]
        | w :: ws => (c :: w) :: ws

/-- The lines of a text: its characters split at newlines (§4.1). -/
def linesOf (text : String) : List (List Char) :=
  splitOnChar (Char.ofNat 10) text.data

/-- Modelled from the spec (§4.1): split one lyric line on whitespace
and strip enclosed punctuation; empty fragments are dropped. -/
def tokenizeLine (line : List Char) : List Token :=
  (((splitOnChar ' ' line).map
      (fun w => w.filter (fun c => !isPunctuation c))).filter
    (fun w => !w.isEmpty)).map (fun w => ⟨String.mk w⟩)

/-- The placeholder token used for empty input (§4.1). -/
def fallbackToken : Token := ⟨"la"⟩

/-- Modelled from the spec (§4.1): split the raw lyric text on line
breaks, tokenize each line, drop blank lines; empty-text and
empty-line input yields a single fallback token list so downstream
stages always have at least one token. -/
def tokenize (text : String) : List (List Token) :=
  let ls := ((linesOf text).map tokenizeLine).filter (fun l => !l.isEmpty)
  if ls.isEmpty then [[fallbackToken]] else ls

/-- Major-scale intervals in semitones (§4.3). -/
def majorIntervals : List Nat := [0, 2, 4, 5, 7, 9, 11]

/-- Natural-minor-scale intervals in semitones (§4.3). -/
def minorIntervals : List Nat := [0, 2, 3, 5, 7, 8, 10]

/-- Modelled from the spec (§3): a ScaleSpec is the tonic pitch class,
the mode, and the ordered pitch classes of one octave. -/
structure ScaleSpec where
  tonicPitchClass : Nat
  mode : String
  members : List Nat
deriving Repr, DecidableEq

/-- Modelled from the spec (§4.3): build the scale for a tonic pitch
class and mode; an unrecognized mode string falls back to major. -/
def buildScale (tonic : Nat) (mode : String) : ScaleSpec :=
  let t := tonic % 12
  if mode = "minor" then ⟨t, "minor", minorIntervals.map (fun i => (t + i) % 12)⟩
  else ⟨t, "major", majorIntervals.map (fun i => (t + i) % 12)⟩

/-- Modelled from the spec (§4.3): the candidate scale pitches searched
by `nearestMember` — every member placed in the input's own octave,
one octave down, and one octave up. -/
def octaveCandidates (members : List Nat) (p : Int) : List Int :=
  let base : Int := p / 12 * 12
  members.foldr (fun m acc =>
    (base + m) :: (base + m - 12) :: (base + m + 12) :: acc) []

/-- The comparison used by `nearestMember`: a candidate replaces the
current best iff it is strictly closer in semitones, or equally close
and strictly lower (the documented deterministic tie-break, §4.3). -/
def pickNearer (p best c : Int) : Int :=
  if (c - p).natAbs < (best - p).natAbs
      ∨ ((c - p).natAbs = (best - p).natAbs ∧ c < best) then c else best

/-- Modelled from the spec (§4.3): snap a pitch to the candidate scale
pitch minimizing absolute semitone distance, ties broken by preferring
the lower pitch. -/
def nearestMember (members : List Nat) (p : Int) : Int :=
  match octaveCandidates members p with
  | [] => p
  | c :: cs => cs.foldl (pickNearer p) c

/-- Modelled from the spec (§6): the fully-enumerated generation
parameter record (`structure` is a Lean keyword, hence
`structureTemplate` for the `structure` option). -/
structure Params where
  lyrics : String
  seed : Nat
  tempoBPM : Nat
  beatsPerBar : Nat
  beatUnit : Nat
  keyTonic : Nat
  keyMode : String
  complexity : Rat
  style : String
  structureTemplate : String
deriving Repr, DecidableEq

/-- Modelled from the spec (§6, §9): the tempo is validated/clamped at
construction into the recognized 40-220 BPM window. -/
def clampTempo (t : Nat) : Nat := max 40 (min 220 t)

/-- Modelled from the spec (§6, §9): complexity is clamped into [0,1]. -/
def clampComplexity (c : Rat) : Rat := max 0 (min 1 c)

/-- Beats per bar, clamped to at least one beat (§9). -/
def clampBeats (n : Nat) : Nat := max 1 n

/-- The sub-beat grid is the sixteenth note: four sub-beats per quarter
note, so one sub-beat lasts `60 / (tempo * 4)` seconds (§4.4, glossary). -/
def secondsPerSubBeat (tempoBPM : Nat) : Rat :=
  60 / ((clampTempo tempoBPM : Rat) * 4)

/-- Modelled from the spec (§3): a RhythmStep is a positive duration in
sub-beats together with a rest flag. -/
structure RhythmStep where
  durationInSubBeats : Nat
  isRest : Bool
deriving Repr, DecidableEq

/-- Complexity-weighted choice of a duration in sub-beats (sixteenth /
eighth / quarter equivalents): higher complexity biases toward shorter
subdivisions (§4.4). -/
def chooseDuration (complexity r : Rat) : Nat :=
  if r < complexity / 2 then 1 else if r < (1 + complexity) / 2 then 2 else 4

/-- Complexity-weighted rest decision: higher complexity raises the
rest probability (§4.4). -/
def chooseRest (complexity r : Rat) : Bool :=
  decide (r < complexity / 8)

/-- Modelled from the spec (§4.4): the rhythm generator emits one
RhythmStep per token, drawing duration and rest flag from the seeded
RNG; zero tokens emit nothing. -/
def genRhythm (complexity : Rat) : Nat → Nat → List RhythmStep × Nat
  | 0, s => ([], s)
  | n + 1, s =>
      let (s1, r1) := rngNext s
      let (s2, r2) := rngNext s1
      let (steps, s3) := genRhythm complexity n s2
      (⟨chooseDuration complexity r1, chooseRest complexity r2⟩ :: steps, s3)

/-- Modelled from the spec (§3): a NoteEvent. -/
structure NoteEvent where
  startTimeSeconds : Rat
  durationSeconds : Rat
  pitchMidi : Option Int
  lyric : String
  velocity : Rat
  isOrnament : Bool
deriving Repr, DecidableEq

/-- The per-run context of the melody generator (§4.5): scale members,
vocal range, complexity, and seconds per sub-beat. -/
structure MelodyCtx where
  members : List Nat
  lowPitch : Int
  highPitch : Int
  complexity : Rat
  sps : Rat
deriving Repr, DecidableEq

/-- The running state of the melody generator: absolute-time cursor,
previous pitch, and RNG state (§4.5). -/
structure MelodyState where
  cursor : Rat
  prevPitch : Int
  rng : Nat
deriving Repr, DecidableEq

/-- Complexity-weighted signed interval in semitones, favouring small
steps over large leaps; larger leaps only at high complexity (§4.5). -/
def pickInterval (complexity r : Rat) : Int :=
  if r < 1/8 then -2
  else if r < 1/4 then -1
  else if r < 1/2 then 0
  else if r < 3/4 then 1
  else if r < 7/8 then 2
  else if r < 15/16 then (if 1/2 < complexity then 5 else 2)
  else -5

/-- Transpose up by whole octaves until at least `low` (§4.5). -/
def foldUp (low p : Int) : Int :=
  if p < low then p + 12 * ((low - p + 11) / 12) else p

/-- Transpose down by whole octaves until at most `high` (§4.5). -/
def foldDown (high p : Int) : Int :=
  if high < p then p - 12 * ((p - high + 11) / 12) else p

/-- Fold a pitch into `[low, high]` by octave transposition, never by
truncating clamping (§4.5). -/
def foldIntoRange (low high p : Int) : Int :=
  foldDown high (foldUp low p)

/-- Modelled from the spec (§4.5): emit the note(s) for one
(token, rhythm step) pair.  A rest advances the cursor and emits
nothing; otherwise the target pitch is `previous + signedInterval`,
snapped via `nearestMember` and folded into the vocal range.  When
complexity exceeds the 0.7 threshold an ornament (grace note at a
scale neighbour, a quarter of the host's duration, empty lyric,
`isOrnament = true`) may precede the host note, splitting its
duration. -/
def melodyStep (ctx : MelodyCtx) (tok : Token) (step : RhythmStep)
    (st : MelodyState) : List NoteEvent × MelodyState :=
  let dur : Rat := step.durationInSubBeats * ctx.sps
  if step.isRest then
    ([], { st with cursor := st.cursor + dur })
  else
    let (rng1, r1) := rngNext st.rng
    let (rng2, r2) := rngNext rng1
    let target := st.prevPitch + pickInterval ctx.complexity r1
    let pitch := foldIntoRange ctx.lowPitch ctx.highPitch
      (nearestMember ctx.members target)
    if 7/10 < ctx.complexity ∧ r2 < ctx.complexity / 4 then
      ([⟨st.cursor, dur / 4, some (nearestMember ctx.members (pitch + 2)), "", 4/5, true⟩,
        ⟨st.cursor + dur / 4, dur * 3 / 4, some pitch, tok.text, 4/5, false⟩],
       ⟨st.cursor + dur, pitch, rng2⟩)
    else
      ([⟨st.cursor, dur, some pitch, tok.text, 4/5, false⟩],
       ⟨st.cursor + dur, pitch, rng2⟩)

/-- Modelled from the spec (§4.5): the melody generator walks the
(token, rhythm step) pairs of one line, threading the state. -/
def melodyLine (ctx : MelodyCtx) :
    List (Token × RhythmStep) → MelodyState → List NoteEvent × MelodyState
  | [], st => ([], st)
  | (tok, step) :: rest, st =>
      let (ns, st1) := melodyStep ctx tok step st
      let (ns', st2) := melodyLine ctx rest st1
      (ns ++ ns', st2)

/-- Modelled from the spec (§3): a ChordEvent. -/
structure ChordEvent where
  barIndex : Nat
  romanOrName : String
  pitchClasses : List Nat
deriving Repr, DecidableEq

/-- Modelled from the spec (§4.6): the small fixed set of scale-degree
progression templates (0-based degrees); an unknown style falls back
to the default template (§7). -/
def styleTemplate (style : String) : List Nat :=
  if style = "pop" then [0, 4, 5, 3]
  else if style = "folk" then [0, 3, 4, 0]
  else if style = "ballad" then [0, 5, 3, 4]
  else [0, 4, 5, 3]

/-- Roman numerals for the seven scale degrees. -/
def romanNames : List String :=
  ["I", "II", "III", "IV", "V", "VI", "VII"]

/-- Modelled from the spec (§4.6): resolve a scale degree to a
`[root, third, fifth]` triad — the degree's root, the degree two steps
higher, and the degree four steps higher, wrapping around the scale. -/
def triadFor (members : List Nat) (deg : Nat) : List Nat :=
  match members.length with
  | 0 => [0, 4, 7]
  | n + 1 =>
      [((members.get? (deg % (n + 1))).getD 0),
       ((members.get? ((deg + 2) % (n + 1))).getD 0),
       ((members.get? ((deg + 4) % (n + 1))).getD 0)]

/-- Modelled from the spec (§4.6): a chord is minor iff the root-third
interval is 3 semitones. -/
def chordIsMinor (root third : Nat) : Bool :=
  (third + 12 - root % 12) % 12 = 3

/-- Chord symbol: the degree's roman numeral, with an `m` suffix for
minor quality (§4.6). -/
def chordName (members : List Nat) (deg : Nat) : String :=
  let pcs := triadFor members deg
  let base := (romanNames.get? (deg % 7)).getD "I"
  if chordIsMinor ((pcs.get? 0).getD 0) ((pcs.get? 1).getD 0) then base ++ "m"
  else base

/-- Modelled from the spec (§4.6): the "random" style walks scale
degrees using the RNG. -/
def randomWalkDegrees (rng : Nat) (deg : Nat) : Nat → List Nat
  | 0 => []
  | n + 1 =>
      let (s', r) := rngNext rng
      let d' := (deg + (⌊r * 7⌋).toNat) % 7
      d' :: randomWalkDegrees s' d' n

/-- The scale degree for every bar in `[0, totalBars)`: templates
repeat bar-indexed, the "random" style walks with the RNG (§4.6). -/
def chordDegrees (style : String) (rng : Nat) (totalBars : Nat) : List Nat :=
  if style = "random" then randomWalkDegrees rng 0 totalBars
  else
    (List.range totalBars).map (fun bar =>
      ((styleTemplate style).get? (bar % (styleTemplate style).length)).getD 0)

/-- Modelled from the spec (§4.6): one ChordEvent per bar, bar indices
contiguous from 0. -/
def genChords (members : List Nat) (degs : List Nat) : List ChordEvent :=
  degs.enum.map (fun bd => ⟨bd.1, chordName members bd.2, triadFor members bd.2⟩)

/-- Modelled from the spec (§3): a Section. -/
structure Section where
  name : String
  startBar : Nat
  barCount : Nat
deriving Repr, DecidableEq

/-- Modelled from the spec (§3): the SongTimeline root aggregate. -/
structure SongTimeline where
  tempoBPM : Nat
  beatsPerBar : Nat
  beatUnit : Nat
  key : ScaleSpec
  sections : List Section
  chords : List ChordEvent
  notes : List NoteEvent
  totalBars : Nat
  totalDurationSeconds : Rat
deriving Repr, DecidableEq

/-- Total duration of a rhythm-step list in sub-beats. -/
def stepsSubBeats (steps : List RhythmStep) : Nat :=
  (steps.map (fun s => s.durationInSubBeats)).sum

/-- Breath gap between lines, in sub-beats (§4.7). -/
def lineGapSubBeats : Nat := 2

/-- Larger gap between sections, in sub-beats (§4.7). -/
def sectionGapSubBeats : Nat := 4

/-- Modelled from the spec (§4.7): process one lyric line — generate
its rhythm from the token count, generate its melody, advance the
cursor past the notes and a small fixed breath gap. -/
def runLine (ctx : MelodyCtx) (toks : List Token) (st : MelodyState) :
    List NoteEvent × Nat × MelodyState :=
  let sr := genRhythm ctx.complexity toks.length st.rng
  let ml := melodyLine ctx (toks.zip sr.1) ⟨st.cursor, st.prevPitch, sr.2⟩
  (ml.1, stepsSubBeats sr.1 + lineGapSubBeats,
   ⟨ml.2.cursor + lineGapSubBeats * ctx.sps, ml.2.prevPitch, ml.2.rng⟩)

/-- Process the lines of one section in order, accumulating notes and
the sub-beat footprint (§4.7). -/
def runLines (ctx : MelodyCtx) :
    List (List Token) → MelodyState → List NoteEvent × Nat × MelodyState
  | [], st => ([], 0, st)
  | l :: ls, st =>
      let (ns, sb, st1) := runLine ctx l st
      let (ns', sb', st2) := runLines ctx ls st1
      (ns ++ ns', sb + sb', st2)

/-- Modelled from the spec (§4.7): map a structure label to a lyric
block — `A` is the first block, `B` the second if present else the
first, `C` the third if present else the first, numeric labels index
blocks explicitly, clamped to the available range. -/
def blockIndexForLabel (label : String) (blockCount : Nat) : Nat :=
  if label = "A" then 0
  else if label = "B" then (if 2 ≤ blockCount then 1 else 0)
  else if label = "C" then (if 3 ≤ blockCount then 2 else 0)
  else
    match label.toNat? with
    | some n => min n (blockCount - 1)
    | none => 0

/-- Sub-beats per bar: beats per bar times the four-per-beat grid. -/
def subBeatsPerBar (beatsPerBar : Nat) : Nat :=
  clampBeats beatsPerBar * 4

/-- The accumulated state of the section composer (§4.7): melody state,
bar cursor, and the note/section accumulators. -/
structure CompState where
  cursor : Rat
  prevPitch : Int
  rng : Nat
  barCursor : Nat
  notesAcc : List NoteEvent
  sectionsAcc : List Section
deriving Repr, DecidableEq

/-- Modelled from the spec (§4.7): compose one section — run its lines,
insert the section gap, allocate at least one bar rounded up from the
sub-beat footprint, and append the section record at the running bar
cursor. -/
def runSection (ctx : MelodyCtx) (sbPerBar : Nat)
    (blocks : List (List (List Token))) (label : String) (st : CompState) :
    CompState :=
  let idx := blockIndexForLabel label blocks.length
  let lines := (blocks.get? idx).getD [[fallbackToken]]
  let r := runLines ctx lines ⟨st.cursor, st.prevPitch, st.rng⟩
  let bars := max 1 ((r.2.1 + sectionGapSubBeats + sbPerBar - 1) / sbPerBar)
  { cursor := r.2.2.cursor + sectionGapSubBeats * ctx.sps
    prevPitch := r.2.2.prevPitch
    rng := r.2.2.rng
    barCursor := st.barCursor + bars
    notesAcc := st.notesAcc ++ r.1
    sectionsAcc := st.sectionsAcc ++ [⟨label, st.barCursor, bars⟩] }

/-- Compose every section of the structure template in order (§4.7). -/
def runSections (ctx : MelodyCtx) (sbPerBar : Nat)
    (blocks : List (List (List Token))) :
    List String → CompState → CompState
  | [], st => st
  | lab :: rest, st =>
      runSections ctx sbPerBar blocks rest (runSection ctx sbPerBar blocks lab st)

/-- Parse the `"A A B A"`-style structure string; an empty template
falls back to a single `A` section (§6, §7). -/
def parseStructure (s : String) : List String :=
  let labs := ((splitOnChar ' ' s.data).filter (fun l => !l.isEmpty)).map String.mk
  if labs.isEmpty then ["A"] else labs

/-- Group tokenized lines into blocks: a blank line (empty token list)
separates blocks, consecutive non-blank lines form one block (§4.1). -/
def groupBlocks : List (List Token) → List (List (List Token))
  | [] => [[]]
  | l :: rest =>
      let r := groupBlocks rest
      if l.isEmpty then [] :: r
      else
        match r with
        | [] => [[l]]
        | b :: bs => (l :: b) :: bs

/-- Split the lyrics into blocks of tokenized lines on blank lines; an
input with no tokens at all yields one block holding the fallback
token line (§4.1, §4.7). -/
def parseBlocks (lyrics : String) : List (List (List Token)) :=
  let bs := (groupBlocks ((linesOf lyrics).map tokenizeLine)).filter
    (fun b => !b.isEmpty)
  if bs.isEmpty then [[[fallbackToken]]] else bs

/-- Default vocal range low bound (A3), §4.5/§6. -/
def defaultLowPitch : Int := 57

/-- Default vocal range high bound (D5), §4.5/§6. -/
def defaultHighPitch : Int := 74

/-- Modelled from the spec (§2, §4.7): the deterministic generation
pipeline — tokenize, build the scale, compose sections over the
structure template, generate one chord per bar, and aggregate the
immutable SongTimeline. -/
def generateSong (p : Params) : SongTimeline :=
  let scale := buildScale p.keyTonic p.keyMode
  let ctx : MelodyCtx := ⟨scale.members, defaultLowPitch, defaultHighPitch,
    clampComplexity p.complexity, secondsPerSubBeat p.tempoBPM⟩
  let sbPerBar := subBeatsPerBar p.beatsPerBar
  let blocks := parseBlocks p.lyrics
  let labels := parseStructure p.structureTemplate
  let st0 : CompState :=
    ⟨0, (defaultLowPitch + defaultHighPitch) / 2, rngSeedInit p.seed, 0, [], []⟩
  let st := runSections ctx sbPerBar blocks labels st0
  let chords := genChords scale.members (chordDegrees p.style st.rng st.barCursor)
  let totalDur :=
    match st.notesAcc.getLast? with
    | some n => n.startTimeSeconds + n.durationSeconds
    | none => st.cursor
  { tempoBPM := clampTempo p.tempoBPM
    beatsPerBar := clampBeats p.beatsPerBar
    beatUnit := p.beatUnit
    key := scale
    sections := st.sectionsAcc
    chords := chords
    notes := st.notesAcc
    totalBars := st.barCursor
    totalDurationSeconds := totalDur }

/-- Modelled from the spec (§4.8): the fixed time resolution, 480 ticks
per quarter note, chosen once for the whole file. -/
def ticksPerQuarter : Nat := 480

/-- Round-half-up rounding of a rational to an integer. -/
def ratRound (q : Rat) : Int := ⌊q + 1 / 2⌋

/-- Modelled from the spec (§4.8):
`ticks = round(seconds * tempoBPM * ticksPerQuarterNote / 60)`. -/
def secondsToTicks (tempo : Nat) (sec : Rat) : Nat :=
  (ratRound (sec * tempo * ticksPerQuarter / 60)).toNat

/-- The 7-bit groups of a natural number, most significant first. -/
def vlqGroups (n : Nat) : List Nat :=
  if _h : n < 128 then [n]
  else vlqGroups (n / 128) ++ [n % 128]
termination_by n
decreasing_by omega

/-- Set the continuation (high) bit on every group but the last. -/
def vlqMark : List Nat → List Nat
  | [] => []
  | [g] => [g]
  | g :: gs => (g + 128) :: vlqMark gs

/-- Modelled from the spec (§4.8): the variable-length-quantity
encoding — 7 data bits per byte, high bit set on all but the final
byte, most significant group first. -/
def writeVarLen (n : Nat) : List Nat :=
  vlqMark (vlqGroups n)

/-- Decode a variable-length quantity (7 data bits per byte). -/
def vlqDecode (bs : List Nat) : Nat :=
  bs.foldl (fun acc b => acc * 128 + b % 128) 0

/-- Big-endian 16-bit field. -/
def be16 (n : Nat) : List Nat := [n / 256 % 256, n % 256]

/-- Big-endian 32-bit field. -/
def be32 (n : Nat) : List Nat :=
  [n / 16777216 % 256, n / 65536 % 256, n / 256 % 256, n % 256]

/-- The value a big-endian byte field declares. -/
def beValue (bs : List Nat) : Nat :=
  bs.foldl (fun acc b => acc * 256 + b) 0

/-- Modelled from the spec (§8, Scenario E): the tempo meta payload is
`round(60_000_000 / tempoBPM)` microseconds per quarter note. -/
def tempoMicros (tempo : Nat) : Nat :=
  (ratRound (60000000 / (clampTempo tempo : Rat))).toNat

/-- Big-endian 24-bit field (tempo meta payload). -/
def be24 (n : Nat) : List Nat := [n / 65536 % 256, n / 256 % 256, n % 256]

/-- One track event positioned at an absolute tick, with its bytes and
a note-on flag used by the equal-tick ordering rule (§4.8). -/
structure TrackEvent where
  tick : Nat
  isNoteOn : Bool
  bytes : List Nat
deriving Repr, DecidableEq

/-- Modelled from the spec (§4.8): a note-on/note-off pair for every
audible note; a non-positive-duration note is clamped so the note-off
tick is strictly after the note-on tick (never a zero-length event). -/
def noteEventsToTrackEvents (tempo : Nat) (notes : List NoteEvent) :
    List TrackEvent :=
  notes.foldr (fun n acc =>
    match n.pitchMidi with
    | none => acc
    | some pitch =>
        let onTick := secondsToTicks tempo n.startTimeSeconds
        let offTick := max (onTick + 1)
          (secondsToTicks tempo (n.startTimeSeconds + n.durationSeconds))
        let key := pitch.toNat % 128
        let vel := (ratRound (n.velocity * 127)).toNat % 128
        ⟨onTick, true, [144, key, vel]⟩ :: ⟨offTick, false, [128, key, 64]⟩ :: acc)
    []

/-- Event order: by tick, and at equal tick note-offs before
note-ons (§4.8). -/
def eventLE (a b : TrackEvent) : Bool :=
  decide (a.tick < b.tick) ||
    (decide (a.tick = b.tick) && (!a.isNoteOn || b.isNoteOn))

/-- Insert an event into an `eventLE`-sorted list. -/
def insertEvent (e : TrackEvent) : List TrackEvent → List TrackEvent
  | [] => [e]
  | x :: xs => if eventLE e x then e :: x :: xs else x :: insertEvent e xs

/-- Sort the track events (insertion sort, §4.8 ordering rule). -/
def sortEvents (es : List TrackEvent) : List TrackEvent :=
  es.foldr insertEvent []

/-- Modelled from the spec (§4.8): prefix every event with the
variable-length delta from the previous event's tick position. -/
def deltaEncode : Nat → List TrackEvent → List Nat
  | _, [] => []
  | prev, e :: es => writeVarLen (e.tick - prev) ++ e.bytes ++ deltaEncode e.tick es

/-- Modelled from the spec (§4.8): the track's event stream — tempo
meta, time-signature meta, program-select, the sorted note-on/off
pairs, and the end-of-track marker, all delta-time prefixed. -/
def trackData (t : SongTimeline) : List Nat :=
  let metas : List TrackEvent :=
    [⟨0, false, [255, 81, 3] ++ be24 (tempoMicros t.tempoBPM)⟩,
     ⟨0, false, [255, 88, 4, t.beatsPerBar % 256, Nat.log2 (max 1 t.beatUnit), 24, 8]⟩,
     ⟨0, false, [192, 0]⟩]
  let evs := sortEvents (noteEventsToTrackEvents t.tempoBPM t.notes)
  deltaEncode 0 (metas ++ evs) ++ writeVarLen 0 ++ [255, 47, 0]

/-- Modelled from the spec (§4.8): the 14-byte header chunk — magic
`MThd`, length 6, format 0, track count 1, ticks per quarter. -/
def headerChunk : List Nat :=
  [77, 84, 104, 100] ++ be32 6 ++ be16 0 ++ be16 1 ++ be16 ticksPerQuarter

/-- Modelled from the spec (§4.8): the single track chunk — magic
`MTrk`, the 4-byte big-endian byte count of the event stream, then the
event stream. -/
def trackChunk (t : SongTimeline) : List Nat :=
  [77, 84, 114, 107] ++ be32 (trackData t).length ++ trackData t

/-- Modelled from the spec (§4.8): the encoded file is the header chunk
followed by exactly one track chunk. -/
def encodeFile (t : SongTimeline) : List Nat :=
  headerChunk ++ trackChunk t

/-- Modelled from the spec (§1, §2): the whole pipeline —
text + parameters → timeline → bytes. -/
def encodeSongFile (p : Params) : List Nat :=
  encodeFile (generateSong p)

/-- "`r` is at least as near to `p` as `x`, preferring the lower pitch
on exact ties" — the ordering `nearestMember` minimizes (§4.3). -/
def NearerOrEq (p r x : Int) : Prop :=
  (r - p).natAbs < (x - p).natAbs ∨ ((r - p).natAbs = (x - p).natAbs ∧ r ≤ x)

/-- The note list `ns` lies between the time cursors `c0` and `c1`:
the cursor never moves backwards, the notes are in non-decreasing
start-time order, and every note starts inside `[c0, c1]` with a
non-negative duration (§4.5, §4.7 invariants). -/
def NotesOK (c0 : Rat) (ns : List NoteEvent) (c1 : Rat) : Prop :=
  c0 ≤ c1 ∧
  ns.Chain' (fun a b => a.startTimeSeconds ≤ b.startTimeSeconds) ∧
  ∀ n ∈ ns, c0 ≤ n.startTimeSeconds ∧ n.startTimeSeconds ≤ c1 ∧
    0 ≤ n.durationSeconds

/-- The section list partitions the bar interval `[b, e)` contiguously:
each section starts where the previous one ended (§4.7 invariant). -/
def SectionsFrom : Nat → List Section → Nat → Prop
  | b, [], e => b = e
  | b, s :: ss, e => s.startBar = b ∧ SectionsFrom (b + s.barCount) ss e

/-!
# Theorems

Helper lemmas first, then one theorem per specification claim.
-/

/-- Folding `(acc, val) ↦ acc + val.close` over a list adds the sum of
the `close` fields to the initial accumulator. -/
theorem foldl_add_close (l : List Candle) (init : Rat) :
    l.foldl (fun acc val => acc + val.close) init = init + (l.map Candle.close).sum := by
  induction l generalizing init with
  | nil => simp
  | cons a t ih => simp [ih, add_assoc]

/-- The `close` fields of the window `data[i .. i+p-1]`, summed as a
list, equal the indexed sum over `Finset.range p`. -/
theorem window_close_sum (data : List Candle) (i p : Nat) (h : i + p ≤ data.length) :
    (((data.drop i).take p).map Candle.close).sum
      = ∑ j ∈ Finset.range p, (candleAt data (i + j)).close := by
  induction p with
  | zero => simp
  | succ p ih =>
    rw [Finset.sum_range_succ, ← ih (by omega), List.take_succ]
    have hd : (data.drop i)[p]? = some (candleAt data (i + p)) := by
      rw [List.getElem?_drop]
      have hlt : i + p < data.length := by omega
      simp [candleAt, List.get?_eq_getElem?, List.getElem?_eq_getElem hlt]
    simp [hd]

/-- C9: for every data list of length `n` and every period `p ≥ 1`,
`calculateSMA data p` has length `max 0 (n - p + 1)` (as the truncated
natural `n + 1 - p`), its `i`-th entry carries the time of
`data[p - 1 + i]`, and its value is the arithmetic mean of the `close`
fields of `data[i .. i + p - 1]`. -/
theorem calculateSMA_spec (data : List Candle) (period : Nat) (hp : 1 ≤ period) :
    (calculateSMA data period).length = data.length + 1 - period ∧
    ∀ i, ∀ h : i < (calculateSMA data period).length,
      ((calculateSMA data period).get ⟨i, h⟩).time
          = (candleAt data (period - 1 + i)).time ∧
      ((calculateSMA data period).get ⟨i, h⟩).value
          = (∑ j ∈ Finset.range period, (candleAt data (i + j)).close) / (period : Rat) := by
  have hlen : (calculateSMA data period).length = data.length + 1 - period := by
    simp [calculateSMA]
    omega
  refine ⟨hlen, ?_⟩
  intro i h
  have hi : i < data.length + 1 - period := hlen ▸ h
  have hglobal : i + period ≤ data.length := by omega
  have hget : (calculateSMA data period).get ⟨i, h⟩
      = { time := (candleAt data (period - 1 + i)).time
          value := (((data.drop (period - 1 + i + 1 - period)).take
              ((period - 1 + i + 1) - (period - 1 + i + 1 - period))).foldl
              (fun acc val => acc + val.close) 0) / (period : Rat) } := by
    simp [calculateSMA, List.get_eq_getElem]
  rw [hget]
  refine ⟨rfl, ?_⟩
  have e1 : period - 1 + i + 1 - period = i := by omega
  have e2 : (period - 1 + i + 1) - (period - 1 + i + 1 - period) = period := by omega
  rw [e2, e1, foldl_add_close, zero_add, window_close_sum data i period hglobal]

/-- Witness for `calculateSMA_spec` at a concrete 3-candle list and
period 2. -/
theorem calculateSMA_spec_witness :
    (calculateSMA [⟨1, 0, 0, 0, 10⟩, ⟨2, 0, 0, 0, 20⟩, ⟨3, 0, 0, 0, 30⟩] 2).length = 2 ∧
    ((calculateSMA [⟨1, 0, 0, 0, 10⟩, ⟨2, 0, 0, 0, 20⟩, ⟨3, 0, 0, 0, 30⟩] 2).get
        ⟨0, by decide⟩).value = 15 := by
  have h := calculateSMA_spec [⟨1, 0, 0, 0, 10⟩, ⟨2, 0, 0, 0, 20⟩, ⟨3, 0, 0, 0, 30⟩] 2
    (by decide)
  refine ⟨h.1, ?_⟩
  rw [(h.2 0 (by rw [h.1]; decide)).2]
  norm_num [Finset.sum_range_succ, candleAt]

/-- C10: `safeFilename` always returns at most 80 characters, all of
them in `[a-zA-Z0-9._-]`, and maps a null/undefined or empty input to
the sanitization of `"file"` (which is `"file"` itself). -/
theorem safeFilename_spec (name : Option String) :
    (safeFilename name).length ≤ 80 ∧
    (∀ c ∈ (safeFilename name).data, safeFilenameAllowed c = true) ∧
    ((name = none ∨ name = some "") → safeFilename name = "file") := by
  refine ⟨?_, ?_, ?_⟩
  · unfold safeFilename
    have hmk : ∀ l : List Char, (String.mk l).length = l.length := fun _ => rfl
    rw [hmk, List.length_take]
    exact min_le_left _ _
  · intro c hc
    simp only [safeFilename] at hc
    have hc' := List.mem_of_mem_take hc
    rcases List.mem_map.mp hc' with ⟨a, _, rfl⟩
    by_cases ha : safeFilenameAllowed a
    · simp only [if_pos ha]
      exact ha
    · simp only [if_neg ha]
      decide
  · rintro (rfl | rfl) <;> decide

/-- Witness for `safeFilename_spec` at `none`. -/
theorem safeFilename_spec_witness :
    (safeFilename none).length ≤ 80 ∧ safeFilename none = "file" := by
  have h := safeFilename_spec none
  exact ⟨h.1, h.2.2 (Or.inl rfl)⟩

/-- Decoding the base64 digit of a sextet `s < 64` recovers `s`. -/
theorem sextetOf_sextetChar : ∀ s, s < 64 → sextetOf (sextetChar s) = s := by
  decide

/-- A base64 digit is never the padding character `=` (code 61). -/
theorem sextetChar_ne_61 : ∀ s, s < 64 → sextetChar s ≠ 61 := by
  decide

/-- Induction principle matching the three-bytes-at-a-time recursion of
`btoa`. -/
theorem chunk3_induction {α : Type} (P : List α → Prop) (h0 : P []) (h1 : ∀ a, P [a])
    (h2 : ∀ a b, P [a, b]) (h3 : ∀ a b c l, P l → P (a :: b :: c :: l)) :
    ∀ l, P l
  | [] => h0
  | [a] => h1 a
  | [a, b] => h2 a b
  | a :: b :: c :: t => h3 a b c t (chunk3_induction P h0 h1 h2 h3 t)

/-- `atob` is a left inverse of `btoa` on byte lists. -/
theorem atob_btoa (ab : List Nat) (hb : ∀ b ∈ ab, b < 256) : atob (btoa ab) = ab := by
  revert hb
  induction ab using chunk3_induction with
  | h0 => intro _; rfl
  | h1 a =>
    intro hb
    have ha : a < 256 := hb a (by simp)
    have s1 : a / 4 < 64 := by omega
    have s2 : a % 4 * 16 < 64 := by omega
    simp only [btoa, atob, if_pos rfl, if_true]
    rw [sextetOf_sextetChar _ s1, sextetOf_sextetChar _ s2]
    simp only [List.cons.injEq]
    exact ⟨by omega, trivial⟩
  | h2 a b =>
    intro hb
    have ha : a < 256 := hb a (by simp)
    have hbb : b < 256 := hb b (by simp)
    have s1 : a / 4 < 64 := by omega
    have s2 : a % 4 * 16 + b / 16 < 64 := by omega
    have s3 : b % 16 * 4 < 64 := by omega
    simp only [btoa, atob, if_neg (sextetChar_ne_61 _ s3), if_pos rfl, if_true]
    rw [sextetOf_sextetChar _ s1, sextetOf_sextetChar _ s2, sextetOf_sextetChar _ s3]
    simp only [List.cons.injEq]
    exact ⟨by omega, by omega, trivial⟩
  | h3 a b c t ih =>
    intro hb
    have ha : a < 256 := hb a (by simp)
    have hbb : b < 256 := hb b (by simp)
    have hcc : c < 256 := hb c (by simp)
    have ht : ∀ x ∈ t, x < 256 := fun x hx => hb x (by simp [hx])
    have s1 : a / 4 < 64 := by omega
    have s2 : a % 4 * 16 + b / 16 < 64 := by omega
    have s3 : b % 16 * 4 + c / 64 < 64 := by omega
    have s4 : c % 64 < 64 := by omega
    simp only [btoa, atob, if_neg (sextetChar_ne_61 _ s3), if_neg (sextetChar_ne_61 _ s4)]
    rw [sextetOf_sextetChar _ s1, sextetOf_sextetChar _ s2, sextetOf_sextetChar _ s3,
      sextetOf_sextetChar _ s4, ih ht]
    simp only [List.cons.injEq]
    exact ⟨by omega, by omega, by omega, trivial⟩

/-- C8: for every byte array `b`, decoding its base64 encoding returns
the original bytes element-wise and with the same length, so images
stored via `handleUpload` come back byte-identical from `handleImage`. -/
theorem base64ToBytes_abToBase64 (ab : List Nat) (hb : ∀ b ∈ ab, b < 256) :
    base64ToBytes (abToBase64 ab) = ab ∧
    (base64ToBytes (abToBase64 ab)).length = ab.length := by
  have h : base64ToBytes (abToBase64 ab) = ab := atob_btoa ab hb
  exact ⟨h, by rw [h]⟩

/-- Witness for `base64ToBytes_abToBase64` at the bytes of `"Man"`. -/
theorem base64ToBytes_abToBase64_witness :
    base64ToBytes (abToBase64 [77, 97, 110]) = [77, 97, 110] :=
  (base64ToBytes_abToBase64 [77, 97, 110] (by decide)).1

/-- `NearerOrEq` is reflexive. -/
theorem nearerOrEq_refl (p r : Int) : NearerOrEq p r r :=
  Or.inr ⟨rfl, le_refl r⟩

/-- `NearerOrEq` is transitive. -/
theorem nearerOrEq_trans (p a b c : Int) :
    NearerOrEq p a b → NearerOrEq p b c → NearerOrEq p a c := by
  unfold NearerOrEq
  omega

/-- `pickNearer` returns one of its two arguments. -/
theorem pickNearer_mem (p b c : Int) :
    pickNearer p b c = b ∨ pickNearer p b c = c := by
  unfold pickNearer
  split
  · exact Or.inr rfl
  · exact Or.inl rfl

/-- The pick is at least as near as the current best. -/
theorem pickNearer_left (p b c : Int) : NearerOrEq p (pickNearer p b c) b := by
  unfold pickNearer NearerOrEq
  split <;> omega

/-- The pick is at least as near as the new candidate. -/
theorem pickNearer_right (p b c : Int) : NearerOrEq p (pickNearer p b c) c := by
  unfold pickNearer NearerOrEq
  split <;> omega

/-- Folding `pickNearer` over candidates stays inside the candidates. -/
theorem foldl_pickNearer_mem (p : Int) :
    ∀ (cs : List Int) (c : Int), cs.foldl (pickNearer p) c ∈ c :: cs := by
  intro cs
  induction cs with
  | nil => simp
  | cons d ds ih =>
    intro c
    have h := ih (pickNearer p c d)
    simp only [List.foldl_cons]
    rcases List.mem_cons.mp h with he | hm
    · rcases pickNearer_mem p c d with h1 | h1 <;> rw [he, h1] <;> simp
    · simp [List.mem_cons_of_mem, hm]

/-- Folding `pickNearer` yields a minimizer over all candidates. -/
theorem foldl_pickNearer_min (p : Int) :
    ∀ (cs : List Int) (c x : Int), x ∈ c :: cs →
      NearerOrEq p (cs.foldl (pickNearer p) c) x := by
  intro cs
  induction cs with
  | nil =>
    intro c x hx
    simp only [List.mem_singleton] at hx
    subst hx
    exact nearerOrEq_refl p x
  | cons d ds ih =>
    intro c x hx
    simp only [List.foldl_cons]
    rcases List.mem_cons.mp hx with rfl | hx'
    · exact nearerOrEq_trans p _ _ _
        (ih (pickNearer p x d) _ (List.mem_cons_self _ _)) (pickNearer_left p x d)
    rcases List.mem_cons.mp hx' with rfl | hx''
    · exact nearerOrEq_trans p _ _ _
        (ih (pickNearer p c x) _ (List.mem_cons_self _ _)) (pickNearer_right p c x)
    · exact ih (pickNearer p c d) x (List.mem_cons_of_mem _ hx'')

/-- Unfolding `octaveCandidates` over a cons cell. -/
theorem octaveCandidates_cons (a : Nat) (t : List Nat) (p : Int) :
    octaveCandidates (a :: t) p
      = (p / 12 * 12 + a) :: (p / 12 * 12 + a - 12) :: (p / 12 * 12 + a + 12)
          :: octaveCandidates t p := rfl

/-- Every scale member contributes its own-octave, octave-down and
octave-up placements to the candidate set. -/
theorem octaveCandidates_has_octaves (members : List Nat) (p : Int) :
    ∀ m ∈ members,
      (p / 12 * 12 + m : Int) ∈ octaveCandidates members p ∧
      (p / 12 * 12 + m - 12 : Int) ∈ octaveCandidates members p ∧
      (p / 12 * 12 + m + 12 : Int) ∈ octaveCandidates members p := by
  induction members with
  | nil => simp
  | cons a t ih =>
    intro m hm
    rw [octaveCandidates_cons]
    rcases List.mem_cons.mp hm with rfl | hm'
    · exact ⟨by simp, by simp, by simp⟩
    · have h3 := ih m hm'
      exact ⟨by simp [List.mem_cons, h3.1], by simp [List.mem_cons, h3.2.1],
        by simp [List.mem_cons, h3.2.2]⟩

/-- C7: for every input pitch, `nearestMember`'s search set contains
each scale member in the input's own octave, one octave up, and one
octave down, and the returned pitch is a candidate minimizing the
absolute semitone distance, with exact ties broken by the single
deterministic rule "prefer the lower pitch". -/
theorem nearestMember_spec (members : List Nat) (p : Int) (hne : members ≠ []) :
    nearestMember members p ∈ octaveCandidates members p ∧
    (∀ m ∈ members,
      (p / 12 * 12 + m : Int) ∈ octaveCandidates members p ∧
      (p / 12 * 12 + m - 12 : Int) ∈ octaveCandidates members p ∧
      (p / 12 * 12 + m + 12 : Int) ∈ octaveCandidates members p) ∧
    ∀ c ∈ octaveCandidates members p,
      (nearestMember members p - p).natAbs < (c - p).natAbs ∨
      ((nearestMember members p - p).natAbs = (c - p).natAbs ∧
        nearestMember members p ≤ c) := by
  rcases hoc : octaveCandidates members p with _ | ⟨c, cs⟩
  · exfalso
    rcases List.exists_mem_of_ne_nil members hne with ⟨m, hm⟩
    have h2 := (octaveCandidates_has_octaves members p m hm).1
    rw [hoc] at h2
    exact (List.not_mem_nil _) h2
  · have hdef : nearestMember members p = cs.foldl (pickNearer p) c := by
      unfold nearestMember
      rw [hoc]
    have hall := octaveCandidates_has_octaves members p
    rw [hoc] at hall
    refine ⟨?_, hall, ?_⟩
    · rw [hdef]
      exact foldl_pickNearer_mem p cs c
    · intro x hx
      rw [hdef]
      exact foldl_pickNearer_min p cs c x hx

/-- Witness for `nearestMember_spec`: the C-major scale at pitch 61
(tie between 60 and 62, resolved to the lower pitch 60). -/
theorem nearestMember_spec_witness :
    nearestMember [0, 2, 4, 5, 7, 9, 11] 61 ∈ octaveCandidates [0, 2, 4, 5, 7, 9, 11] 61 ∧
    ∀ c ∈ octaveCandidates [0, 2, 4, 5, 7, 9, 11] 61,
      (nearestMember [0, 2, 4, 5, 7, 9, 11] 61 - 61).natAbs < (c - 61).natAbs ∨
      ((nearestMember [0, 2, 4, 5, 7, 9, 11] 61 - 61).natAbs = (c - 61).natAbs ∧
        nearestMember [0, 2, 4, 5, 7, 9, 11] 61 ≤ c) := by
  have h := nearestMember_spec [0, 2, 4, 5, 7, 9, 11] 61 (by decide)
  exact ⟨h.1, h.2.2⟩

/-- C2: generation is deterministic — equal parameter tuples give equal
`SongTimeline` values (every `NoteEvent` field equal) and equal encoded
files, and a fixed seed gives the identical sequence of `next()`
outputs; the embedding threads all RNG state explicitly, so no other
input can enter. -/
theorem generation_deterministic (p q : Params) (h : p = q) :
    generateSong p = generateSong q ∧
    encodeSongFile p = encodeSongFile q ∧
    ∀ n, rngStream p.seed n = rngStream q.seed n := by
  subst h
  exact ⟨rfl, rfl, fun _ => rfl⟩

/-- Witness for `generation_deterministic` at concrete parameters. -/
theorem generation_deterministic_witness :
    generateSong ⟨"la la la", 1, 120, 4, 4, 0, "major", 1/2, "pop", "A"⟩
      = generateSong ⟨"la la la", 1, 120, 4, 4, 0, "major", 1/2, "pop", "A"⟩ ∧
    ∀ n, rngStream 1 n = rngStream 1 n := by
  have h := generation_deterministic
    ⟨"la la la", 1, 120, 4, 4, 0, "major", 1/2, "pop", "A"⟩
    ⟨"la la la", 1, 120, 4, 4, 0, "major", 1/2, "pop", "A"⟩ rfl
  exact ⟨h.1, h.2.2⟩

/-- C1: the pipeline is the synchronous composition
text + parameters → timeline → bytes: `encodeSongFile` is exactly the
binary sequence encoder applied to the generated `SongTimeline`, and
the emitted bytes depend on the parameters only through that
timeline. -/
theorem pipeline_factoring (p q : Params) (h : generateSong p = generateSong q) :
    encodeSongFile p = encodeFile (generateSong p) ∧
    encodeSongFile p = encodeSongFile q := by
  constructor
  · rfl
  · unfold encodeSongFile
    rw [h]

/-- Witness for `pipeline_factoring` at concrete parameters. -/
theorem pipeline_factoring_witness :
    encodeSongFile ⟨"la", 7, 90, 3, 4, 2, "minor", 1, "folk", "A B"⟩
      = encodeFile (generateSong ⟨"la", 7, 90, 3, 4, 2, "minor", 1, "folk", "A B"⟩) :=
  (pipeline_factoring ⟨"la", 7, 90, 3, 4, 2, "minor", 1, "folk", "A B"⟩
    ⟨"la", 7, 90, 3, 4, 2, "minor", 1, "folk", "A B"⟩ rfl).1

/-- Contiguous section runs compose by concatenation. -/
theorem sectionsFrom_append (b m e : Nat) (xs ys : List Section)
    (h1 : SectionsFrom b xs m) (h2 : SectionsFrom m ys e) :
    SectionsFrom b (xs ++ ys) e := by
  induction xs generalizing b with
  | nil =>
    have hb : b = m := h1
    subst hb
    exact h2
  | cons s ss ih =>
    exact ⟨h1.1, ih (b + s.barCount) h1.2⟩

/-- `runSection` preserves the section-partition invariant: it appends
one section starting at the running bar cursor and advances the cursor
by that section's bar count. -/
theorem runSection_sectionsFrom (ctx : MelodyCtx) (sbPerBar : Nat)
    (blocks : List (List (List Token))) (label : String) (st : CompState)
    (h : SectionsFrom 0 st.sectionsAcc st.barCursor) :
    SectionsFrom 0 (runSection ctx sbPerBar blocks label st).sectionsAcc
      (runSection ctx sbPerBar blocks label st).barCursor := by
  simp only [runSection]
  exact sectionsFrom_append 0 st.barCursor _ _ _ h ⟨rfl, rfl⟩

/-- `runSections` preserves the section-partition invariant. -/
theorem runSections_sectionsFrom (ctx : MelodyCtx) (sbPerBar : Nat)
    (blocks : List (List (List Token))) :
    ∀ (labels : List String) (st : CompState),
      SectionsFrom 0 st.sectionsAcc st.barCursor →
      SectionsFrom 0 (runSections ctx sbPerBar blocks labels st).sectionsAcc
        (runSections ctx sbPerBar blocks labels st).barCursor := by
  intro labels
  induction labels with
  | nil => intro st h; exact h
  | cons lab rest ih =>
    intro st h
    exact ih _ (runSection_sectionsFrom ctx sbPerBar blocks lab st h)

/-- `runSection` appends exactly one section record. -/
theorem runSection_sections_len (ctx : MelodyCtx) (sbPerBar : Nat)
    (blocks : List (List (List Token))) (label : String) (st : CompState) :
    (runSection ctx sbPerBar blocks label st).sectionsAcc.length
      = st.sectionsAcc.length + 1 := by
  simp only [runSection]
  simp

/-- `runSections` appends one section per structure label. -/
theorem runSections_sections_len (ctx : MelodyCtx) (sbPerBar : Nat)
    (blocks : List (List (List Token))) :
    ∀ (labels : List String) (st : CompState),
      (runSections ctx sbPerBar blocks labels st).sectionsAcc.length
        = st.sectionsAcc.length + labels.length := by
  intro labels
  induction labels with
  | nil => intro st; simp [runSections]
  | cons lab rest ih =>
    intro st
    simp only [runSections]
    rw [ih, runSection_sections_len]
    simp only [List.length_cons]
    omega

/-- The parsed structure template is never empty. -/
theorem parseStructure_ne_nil (s : String) : parseStructure s ≠ [] := by
  cases h : (((splitOnChar ' ' s.data).filter (fun l => !l.isEmpty)).map String.mk).isEmpty with
  | true => simp [parseStructure, h]
  | false =>
    intro hnil
    have he : parseStructure s
        = ((splitOnChar ' ' s.data).filter (fun l => !l.isEmpty)).map String.mk := by
      simp [parseStructure, h]
    rw [hnil] at he
    rw [← he] at h
    simp at h

/-- A contiguous section run starting at `b` has its head at `b`. -/
theorem sectionsFrom_head (b e : Nat) (s : Section) (ss : List Section)
    (h : SectionsFrom b (s :: ss) e) : s.startBar = b := h.1

/-- The first section of a contiguous run from bar 0 starts at bar 0. -/
theorem sectionsFrom_zero_head (e : Nat) (ss : List Section)
    (h : SectionsFrom 0 ss e) (h0 : 0 < ss.length) :
    (ss.get ⟨0, h0⟩).startBar = 0 := by
  cases ss with
  | nil => simp at h0
  | cons s ss' => exact h.1

/-- In a contiguous section run, every section starts where the
previous one ended. -/
theorem sectionsFrom_succ (e : Nat) :
    ∀ (ss : List Section) (b : Nat), SectionsFrom b ss e →
      ∀ i, ∀ h1 : i + 1 < ss.length,
        (ss.get ⟨i + 1, h1⟩).startBar
          = (ss.get ⟨i, Nat.lt_of_succ_lt h1⟩).startBar
            + (ss.get ⟨i, Nat.lt_of_succ_lt h1⟩).barCount := by
  intro ss
  induction ss with
  | nil => intro b _ i h1; simp at h1
  | cons s ss' ih =>
    intro b h i h1
    cases i with
    | zero =>
      cases ss' with
      | nil => simp at h1
      | cons s' ss'' =>
        have hb := h.1
        have hb' := h.2.1
        simp only [List.get]
        rw [hb', hb]
    | succ j =>
      have h2 : j + 1 < ss'.length := by
        simpa using h1
      exact ih (b + s.barCount) h.2 j h2

/-- C5: the sections of every generated timeline partition the bar axis
`[0, totalBars)` with no gaps or overlaps — the section list is
nonempty, contiguous from bar 0 up to `totalBars`, the first section
starts at bar 0, and each later section starts exactly where the
previous one ended. -/
theorem sections_partition (p : Params) :
    (generateSong p).sections ≠ [] ∧
    SectionsFrom 0 (generateSong p).sections (generateSong p).totalBars ∧
    (∀ h0 : 0 < (generateSong p).sections.length,
      ((generateSong p).sections.get ⟨0, h0⟩).startBar = 0) ∧
    ∀ i, ∀ h1 : i + 1 < (generateSong p).sections.length,
      ((generateSong p).sections.get ⟨i + 1, h1⟩).startBar
        = ((generateSong p).sections.get ⟨i, Nat.lt_of_succ_lt h1⟩).startBar
          + ((generateSong p).sections.get ⟨i, Nat.lt_of_succ_lt h1⟩).barCount := by
  have hsec : (generateSong p).sections
      = (runSections
          ⟨(buildScale p.keyTonic p.keyMode).members, defaultLowPitch, defaultHighPitch,
            clampComplexity p.complexity, secondsPerSubBeat p.tempoBPM⟩
          (subBeatsPerBar p.beatsPerBar) (parseBlocks p.lyrics)
          (parseStructure p.structureTemplate)
          ⟨0, (defaultLowPitch + defaultHighPitch) / 2, rngSeedInit p.seed, 0, [], []⟩).sectionsAcc :=
    rfl
  have hbars : (generateSong p).totalBars
      = (runSections
          ⟨(buildScale p.keyTonic p.keyMode).members, defaultLowPitch, defaultHighPitch,
            clampComplexity p.complexity, secondsPerSubBeat p.tempoBPM⟩
          (subBeatsPerBar p.beatsPerBar) (parseBlocks p.lyrics)
          (parseStructure p.structureTemplate)
          ⟨0, (defaultLowPitch + defaultHighPitch) / 2, rngSeedInit p.seed, 0, [], []⟩).barCursor :=
    rfl
  have hfrom : SectionsFrom 0 (generateSong p).sections (generateSong p).totalBars := by
    rw [hsec, hbars]
    exact runSections_sectionsFrom _ _ _ _ _ rfl
  have hlen : (generateSong p).sections.length = (parseStructure p.structureTemplate).length := by
    rw [hsec, runSections_sections_len]
    simp
  have hne : (generateSong p).sections ≠ [] := by
    intro hnil
    have := parseStructure_ne_nil p.structureTemplate
    rw [← List.length_pos] at this
    rw [← hlen, hnil] at this
    simp at this
  exact ⟨hne, hfrom, fun h0 => sectionsFrom_zero_head _ _ hfrom h0,
    sectionsFrom_succ _ _ _ hfrom⟩

/-- An empty note list is bracketed by any non-decreasing cursor pair. -/
theorem notesOK_nil (c0 c1 : Rat) (h : c0 ≤ c1) : NotesOK c0 [] c1 :=
  ⟨h, List.chain'_nil, by simp⟩

/-- Bracketed note lists compose by concatenation. -/
theorem notesOK_append (c0 c1 c2 : Rat) (xs ys : List NoteEvent)
    (h1 : NotesOK c0 xs c1) (h2 : NotesOK c1 ys c2) :
    NotesOK c0 (xs ++ ys) c2 := by
  obtain ⟨hle1, hch1, hb1⟩ := h1
  obtain ⟨hle2, hch2, hb2⟩ := h2
  refine ⟨le_trans hle1 hle2, ?_, ?_⟩
  · rw [List.chain'_append]
    refine ⟨hch1, hch2, ?_⟩
    intro x hx y hy
    obtain ⟨hne, hxe⟩ := List.mem_getLast?_eq_getLast hx
    have hx' : x ∈ xs := hxe ▸ List.getLast_mem hne
    have hy' : y ∈ ys := List.mem_of_mem_head? hy
    exact le_trans (hb1 x hx').2.1 (hb2 y hy').1
  · intro n hn
    rcases List.mem_append.mp hn with h | h
    · obtain ⟨ha, hb, hd⟩ := hb1 n h
      exact ⟨ha, le_trans hb hle2, hd⟩
    · obtain ⟨ha, hb, hd⟩ := hb2 n h
      exact ⟨le_trans hle1 ha, hb, hd⟩

/-- Bracketing bounds can be widened. -/
theorem notesOK_mono (c0' c0 c1 c1' : Rat) (ns : List NoteEvent)
    (h0 : c0' ≤ c0) (h1 : c1 ≤ c1') (h : NotesOK c0 ns c1) :
    NotesOK c0' ns c1' := by
  obtain ⟨hle, hch, hb⟩ := h
  refine ⟨le_trans h0 (le_trans hle h1), hch, ?_⟩
  intro n hn
  obtain ⟨ha, hb', hd⟩ := hb n hn
  exact ⟨le_trans h0 ha, le_trans hb' h1, hd⟩

/-- One sub-beat never lasts a negative amount of time. -/
theorem secondsPerSubBeat_nonneg (t : Nat) : 0 ≤ secondsPerSubBeat t := by
  unfold secondsPerSubBeat
  positivity

/-- `melodyStep` emits notes bracketed between the old and new cursor. -/
theorem melodyStep_ok (ctx : MelodyCtx) (hs : 0 ≤ ctx.sps) (tok : Token)
    (step : RhythmStep) (st : MelodyState) :
    NotesOK st.cursor (melodyStep ctx tok step st).1
      (melodyStep ctx tok step st).2.cursor := by
  have hdur : (0 : Rat) ≤ (step.durationInSubBeats : Rat) * ctx.sps :=
    mul_nonneg (Nat.cast_nonneg _) hs
  unfold melodyStep
  split
  · exact notesOK_nil _ _ (le_add_of_nonneg_right hdur)
  · split
    split
    split
    · refine ⟨le_add_of_nonneg_right hdur, ?_, ?_⟩
      · exact List.chain'_cons.mpr
          ⟨le_add_of_nonneg_right (by linarith), List.chain'_singleton _⟩
      · intro n hn
        rcases List.mem_cons.mp hn with rfl | hn'
        · exact ⟨le_refl _, le_add_of_nonneg_right hdur, by linarith⟩
        rcases List.mem_cons.mp hn' with rfl | hn''
        · exact ⟨le_add_of_nonneg_right (by linarith), by linarith, by linarith⟩
        · exact absurd hn'' (List.not_mem_nil n)
    · refine ⟨le_add_of_nonneg_right hdur, List.chain'_singleton _, ?_⟩
      intro n hn
      rcases List.mem_cons.mp hn with rfl | hn'
      · exact ⟨le_refl _, le_add_of_nonneg_right hdur, hdur⟩
      · exact absurd hn' (List.not_mem_nil n)

/-- `melodyLine` emits notes bracketed between the old and new cursor. -/
theorem melodyLine_ok (ctx : MelodyCtx) (hs : 0 ≤ ctx.sps) :
    ∀ (prs : List (Token × RhythmStep)) (st : MelodyState),
      NotesOK st.cursor (melodyLine ctx prs st).1
        (melodyLine ctx prs st).2.cursor := by
  intro prs
  induction prs with
  | nil => intro st; exact notesOK_nil _ _ le_rfl
  | cons pr rest ih =>
    intro st
    rcases pr with ⟨tok, step⟩
    have h1 := melodyStep_ok ctx hs tok step st
    rcases hms : melodyStep ctx tok step st with ⟨ns, st1⟩
    rw [hms] at h1
    have h2 := ih st1
    simp only [melodyLine, hms]
    exact notesOK_append _ _ _ _ _ h1 h2

/-- `runLine` emits notes bracketed between the old and new cursor. -/
theorem runLine_ok (ctx : MelodyCtx) (hs : 0 ≤ ctx.sps) (toks : List Token)
    (st : MelodyState) :
    NotesOK st.cursor (runLine ctx toks st).1 (runLine ctx toks st).2.2.cursor := by
  have h1 := melodyLine_ok ctx hs
    (toks.zip (genRhythm ctx.complexity toks.length st.rng).1)
    ⟨st.cursor, st.prevPitch, (genRhythm ctx.complexity toks.length st.rng).2⟩
  have hgap : (0 : Rat) ≤ (lineGapSubBeats : Rat) * ctx.sps :=
    mul_nonneg (Nat.cast_nonneg _) hs
  exact notesOK_mono _ _ _ _ _ le_rfl (le_add_of_nonneg_right hgap) h1

/-- `runLines` emits notes bracketed between the old and new cursor. -/
theorem runLines_ok (ctx : MelodyCtx) (hs : 0 ≤ ctx.sps) :
    ∀ (ls : List (List Token)) (st : MelodyState),
      NotesOK st.cursor (runLines ctx ls st).1 (runLines ctx ls st).2.2.cursor := by
  intro ls
  induction ls with
  | nil => intro st; exact notesOK_nil _ _ le_rfl
  | cons l ls' ih =>
    intro st
    have h1 := runLine_ok ctx hs l st
    rcases hr : runLine ctx l st with ⟨ns, sb, st1⟩
    rw [hr] at h1
    have h2 := ih st1
    simp only [runLines, hr]
    exact notesOK_append _ _ _ _ _ h1 h2

/-- `runSection` preserves the global note bracket invariant. -/
theorem runSection_notesOK (ctx : MelodyCtx) (hs : 0 ≤ ctx.sps) (sbPerBar : Nat)
    (blocks : List (List (List Token))) (label : String) (st : CompState)
    (h : NotesOK 0 st.notesAcc st.cursor) :
    NotesOK 0 (runSection ctx sbPerBar blocks label st).notesAcc
      (runSection ctx sbPerBar blocks label st).cursor := by
  simp only [runSection]
  have h1 := runLines_ok ctx hs
    ((blocks.get? (blockIndexForLabel label blocks.length)).getD [[fallbackToken]])
    ⟨st.cursor, st.prevPitch, st.rng⟩
  have hgap : (0 : Rat) ≤ (sectionGapSubBeats : Rat) * ctx.sps :=
    mul_nonneg (Nat.cast_nonneg _) hs
  exact notesOK_append 0 st.cursor _ _ _ h
    (notesOK_mono _ _ _ _ _ le_rfl (le_add_of_nonneg_right hgap) h1)

/-- `runSections` preserves the global note bracket invariant. -/
theorem runSections_notesOK (ctx : MelodyCtx) (hs : 0 ≤ ctx.sps) (sbPerBar : Nat)
    (blocks : List (List (List Token))) :
    ∀ (labels : List String) (st : CompState),
      NotesOK 0 st.notesAcc st.cursor →
      NotesOK 0 (runSections ctx sbPerBar blocks labels st).notesAcc
        (runSections ctx sbPerBar blocks labels st).cursor := by
  intro labels
  induction labels with
  | nil => intro st h; exact h
  | cons lab rest ih =>
    intro st h
    exact ih _ (runSection_notesOK ctx hs sbPerBar blocks lab st h)

/-- The generated notes of every song are bracketed between time 0 and
the final cursor. -/
theorem generateSong_notesOK (p : Params) :
    NotesOK 0 (generateSong p).notes
      (runSections
        ⟨(buildScale p.keyTonic p.keyMode).members, defaultLowPitch, defaultHighPitch,
          clampComplexity p.complexity, secondsPerSubBeat p.tempoBPM⟩
        (subBeatsPerBar p.beatsPerBar) (parseBlocks p.lyrics)
        (parseStructure p.structureTemplate)
        ⟨0, (defaultLowPitch + defaultHighPitch) / 2, rngSeedInit p.seed, 0, [], []⟩).cursor := by
  have h0 : NotesOK 0 ([] : List NoteEvent) 0 := notesOK_nil 0 0 le_rfl
  exact runSections_notesOK _ (secondsPerSubBeat_nonneg p.tempoBPM) _ _ _ _ h0

/-- C4: the note list of every generated timeline is ordered by
non-decreasing start time: consecutive notes satisfy
`notes[i].startTimeSeconds ≤ notes[i+1].startTimeSeconds` (stated as
`List.Chain'` of the pairwise ordering, which is exactly that indexed
condition). -/
theorem notes_monotone (p : Params) :
    List.Chain' (fun a b => a.startTimeSeconds ≤ b.startTimeSeconds)
      (generateSong p).notes :=
  (generateSong_notesOK p).2.1

/-- `tokenize` either falls back to the placeholder line or returns the
non-blank tokenized lines. -/
theorem tokenize_cases (text : String) :
    tokenize text = [[fallbackToken]] ∨
    (tokenize text = ((linesOf text).map tokenizeLine).filter (fun l => !l.isEmpty) ∧
      (((linesOf text).map tokenizeLine).filter (fun l => !l.isEmpty)).isEmpty = false) := by
  cases h : (((linesOf text).map tokenizeLine).filter (fun l => !l.isEmpty)).isEmpty with
  | true => exact Or.inl (by simp [tokenize, h])
  | false => exact Or.inr ⟨by simp [tokenize, h], rfl⟩

/-- A composer state satisfying the note bracket invariant yields a
non-negative total duration, whether taken from the last note's end
or from the final cursor. -/
theorem totalDur_nonneg_of_notesOK (st : CompState)
    (h : NotesOK 0 st.notesAcc st.cursor) :
    0 ≤ (match st.notesAcc.getLast? with
         | some n => n.startTimeSeconds + n.durationSeconds
         | none => st.cursor) := by
  rcases hl : st.notesAcc.getLast? with _ | n
  · exact h.1
  · obtain ⟨hne, hxe⟩ := List.mem_getLast?_eq_getLast (Option.mem_def.mpr hl)
    have hn : n ∈ st.notesAcc := hxe ▸ List.getLast_mem hne
    obtain ⟨ha, _, hd⟩ := h.2.2 n hn
    simp only []
    linarith

/-- C3: the tokenizer is total — empty input yields the single fallback
token list, every input yields at least one line each holding at least
one token — and a generation call on empty lyrics succeeds with a
non-negative total duration. -/
theorem tokenizer_total (p : Params) (_hl : p.lyrics = "") :
    tokenize "" = [[fallbackToken]] ∧
    (∀ text, tokenize text ≠ [] ∧ ∀ l ∈ tokenize text, l ≠ []) ∧
    0 ≤ (generateSong p).totalDurationSeconds := by
  refine ⟨rfl, ?_, ?_⟩
  · intro text
    rcases tokenize_cases text with h | ⟨h, hne⟩
    · rw [h]
      refine ⟨by simp, ?_⟩
      intro l hl'
      simp only [List.mem_singleton] at hl'
      subst hl'
      simp
    · rw [h]
      refine ⟨?_, ?_⟩
      · intro hnil
        rw [hnil] at hne
        simp at hne
      · intro l hl'
        have hmem := List.mem_filter.mp hl'
        have hbe : l.isEmpty = false := by
          have := hmem.2
          simpa using this
        intro hleq
        rw [hleq] at hbe
        simp at hbe
  · exact totalDur_nonneg_of_notesOK
      (runSections
        ⟨(buildScale p.keyTonic p.keyMode).members, defaultLowPitch, defaultHighPitch,
          clampComplexity p.complexity, secondsPerSubBeat p.tempoBPM⟩
        (subBeatsPerBar p.beatsPerBar) (parseBlocks p.lyrics)
        (parseStructure p.structureTemplate)
        ⟨0, (defaultLowPitch + defaultHighPitch) / 2, rngSeedInit p.seed, 0, [], []⟩)
      (generateSong_notesOK p)

/-- Witness for `tokenizer_total` at empty lyrics. -/
theorem tokenizer_total_witness :
    tokenize "" = [[fallbackToken]] ∧
    0 ≤ (generateSong ⟨"", 3, 120, 4, 4, 0, "major", 0, "pop", "A"⟩).totalDurationSeconds := by
  have h := tokenizer_total ⟨"", 3, 120, 4, 4, 0, "major", 0, "pop", "A"⟩ rfl
  exact ⟨h.1, h.2.2⟩

/-- Every 7-bit group of a VLQ is below 128. -/
theorem vlqGroups_lt_128 (n : Nat) : ∀ g ∈ vlqGroups n, g < 128 := by
  induction n using Nat.strong_induction_on with
  | _ n ih =>
    unfold vlqGroups
    split
    · rename_i h
      intro g hg
      simp only [List.mem_singleton] at hg
      omega
    · rename_i h
      intro g hg
      rcases List.mem_append.mp hg with h1 | h1
      · exact ih (n / 128) (by omega) g h1
      · simp only [List.mem_singleton] at h1
        omega

/-- The 7-bit group list of a VLQ is never empty. -/
theorem vlqGroups_ne_nil (n : Nat) : vlqGroups n ≠ [] := by
  unfold vlqGroups
  split
  · simp
  · simp

/-- Reassembling the 7-bit groups, most significant first, recovers the
encoded number. -/
theorem vlqGroups_decode (n : Nat) :
    (vlqGroups n).foldl (fun acc g => acc * 128 + g) 0 = n := by
  induction n using Nat.strong_induction_on with
  | _ n ih =>
    unfold vlqGroups
    split
    · simp
    · rename_i h
      rw [List.foldl_append, ih (n / 128) (by omega)]
      simp only [List.foldl_cons, List.foldl_nil]
      omega

/-- Setting continuation bits does not change the 7 data bits any byte
contributes to the decoded value. -/
theorem vlqMark_decode (gs : List Nat) : ∀ init, (∀ g ∈ gs, g < 128) →
    (vlqMark gs).foldl (fun acc b => acc * 128 + b % 128) init
      = gs.foldl (fun acc g => acc * 128 + g) init := by
  induction gs with
  | nil => intro init _; rfl
  | cons g gs' ih =>
    intro init hlt
    have hg : g < 128 := hlt g (List.mem_cons_self _ _)
    cases gs' with
    | nil =>
      simp only [vlqMark, List.foldl_cons, List.foldl_nil]
      rw [Nat.mod_eq_of_lt hg]
    | cons g'' gs'' =>
      simp only [vlqMark, List.foldl_cons]
      rw [show (g + 128) % 128 = g % 128 by omega, Nat.mod_eq_of_lt hg]
      exact ih _ (fun x hx => hlt x (List.mem_cons_of_mem _ hx))

/-- `vlqMark` splits into the continuation-marked prefix and the plain
final group. -/
theorem vlqMark_split (gs : List Nat) (hne : gs ≠ []) :
    vlqMark gs = (gs.dropLast.map (· + 128)) ++ [gs.getLast hne] := by
  induction gs with
  | nil => exact absurd rfl hne
  | cons g gs' ih =>
    cases gs' with
    | nil => simp [vlqMark]
    | cons g'' gs'' =>
      simp only [vlqMark]
      rw [ih (by simp)]
      simp [List.getLast]

/-- C6: the encoder prefixes every event with a correct variable-length
quantity delta (7 data bits per byte, continuation bit on all but the
final byte, most significant group first), and the file is the 14-byte
header chunk followed by exactly one track chunk whose 4-byte
big-endian length field carries the exact byte count of the track's
event stream. -/
theorem encoder_layout (t : SongTimeline) :
    encodeFile t
      = headerChunk ++ ([77, 84, 114, 107] ++ be32 (trackData t).length ++ trackData t) ∧
    headerChunk.length = 14 ∧
    (∀ (prev : Nat) (e : TrackEvent) (es : List TrackEvent),
      deltaEncode prev (e :: es)
        = writeVarLen (e.tick - prev) ++ e.bytes ++ deltaEncode e.tick es) ∧
    (∀ n, vlqDecode (writeVarLen n) = n) ∧
    (∀ n, writeVarLen n ≠ [] ∧
      (∀ b ∈ (writeVarLen n).dropLast, 128 ≤ b ∧ b < 256) ∧
      ∀ hne : writeVarLen n ≠ [], (writeVarLen n).getLast hne < 128) ∧
    (∀ k, k < 4294967296 → beValue (be32 k) = k) := by
  refine ⟨rfl, rfl, fun _ _ _ => rfl, ?_, ?_, ?_⟩
  · intro n
    unfold vlqDecode writeVarLen
    rw [vlqMark_decode (vlqGroups n) 0 (vlqGroups_lt_128 n)]
    exact vlqGroups_decode n
  · intro n
    have hsplit := vlqMark_split (vlqGroups n) (vlqGroups_ne_nil n)
    refine ⟨?_, ?_, ?_⟩
    · unfold writeVarLen
      rw [hsplit]
      simp
    · intro b hb
      unfold writeVarLen at hb
      rw [hsplit, List.dropLast_concat] at hb
      rcases List.mem_map.mp hb with ⟨g, hg, rfl⟩
      have hg' : g ∈ vlqGroups n := List.dropLast_subset _ hg
      have := vlqGroups_lt_128 n g hg'
      omega
    · intro hne
      unfold writeVarLen at hne ⊢
      have h1 : (vlqMark (vlqGroups n)).getLast? =
          some ((vlqMark (vlqGroups n)).getLast hne) :=
        List.getLast?_eq_getLast_of_ne_nil hne
      have h2 : (vlqMark (vlqGroups n)).getLast? =
          some ((vlqGroups n).getLast (vlqGroups_ne_nil n)) := by
        rw [hsplit]
        exact List.getLast?_concat _
      have h3 := Option.some_injective _ (h1.symm.trans h2)
      rw [h3]
      exact vlqGroups_lt_128 n _ (List.getLast_mem (vlqGroups_ne_nil n))
  · intro k hk
    simp only [beValue, be32, List.foldl_cons, List.foldl_nil]
    omega

/-- Witness for `encoder_layout` at a concrete timeline and concrete
VLQ / length-field inputs. -/
theorem encoder_layout_witness :
    headerChunk.length = 14 ∧
    vlqDecode (writeVarLen 200000) = 200000 ∧
    beValue (be32 4000000000) = 4000000000 := by
  have h := encoder_layout
    ⟨120, 4, 4, ⟨0, "major", [0, 2, 4, 5, 7, 9, 11]⟩, [], [], [], 0, 0⟩
  exact ⟨h.2.1, h.2.2.2.1 200000, h.2.2.2.2.2 4000000000 (by decide)⟩

/-- Witness for `sections_partition` at concrete parameters. -/
theorem sections_partition_witness :
    (generateSong ⟨"hey you\n\nnow", 5, 100, 4, 4, 7, "major", 0, "pop", "A B"⟩).sections ≠ [] ∧
    SectionsFrom 0
      (generateSong ⟨"hey you\n\nnow", 5, 100, 4, 4, 7, "major", 0, "pop", "A B"⟩).sections
      (generateSong ⟨"hey you\n\nnow", 5, 100, 4, 4, 7, "major", 0, "pop", "A B"⟩).totalBars := by
  have h := sections_partition ⟨"hey you\n\nnow", 5, 100, 4, 4, 7, "major", 0, "pop", "A B"⟩
  exact ⟨h.1, h.2.1⟩

end Planning
